import Mathlib

/-!
Verification development for the `excel_mapper` repository
(`src/excel_mapper/core.py`).

The embedding is shallow:

* Python strings are `List Char` (called `Name` below); header values are
  taken to be strings already, matching `str(col_name)` having been applied.
  `str.lower` is modelled on the ASCII range, which is the only range that
  survives the subsequent `[^a-z0-9]` substitution.
* Python `dict` is an insertion-ordered association list (`PyDict`):
  assigning to an existing key updates the value in place, assigning to a
  fresh key appends at the end.  This matches CPython dict semantics.
* A spreadsheet cell is `Option V`: `none` is the absent value (`NaN` on
  read, `None` in a `Row`).  `pd.isna` normalisation is then the identity,
  as both `NaN` and `None` are represented by `none`.
* The external tabular I/O collaborator (pandas) is modelled by `XFile`:
  an ordered header list plus positional cell rows.  `pd.read_excel`
  produces header-keyed record dicts (`df.to_dict('records')`), and
  `pd.DataFrame(list-of-dicts).to_excel` infers its columns as the ordered
  union of the record keys; both are modelled below.
-/

/-- A Python string: a list of characters. -/
abbrev Name := List Char

/-- A Python `dict` as an insertion-ordered association list. -/
abbrev PyDict (K V : Type) := List (K × V)

/-- Model of `d[k]` lookup (first entry with the key; keys are unique in dicts built
by `pyInsert`). -/
def pyLookup {K V : Type} [DecidableEq K] : PyDict K V → K → Option V
  | [], _ => none
  | (a, b) :: rest, k => if a = k then some b else pyLookup rest k

/-- Model of `d[k] = v` assignment: update in place if the key exists, else append. -/
def pyInsert {K V : Type} [DecidableEq K] : PyDict K V → K → V → PyDict K V
  | [], k, v => [(k, v)]
  | (a, b) :: rest, k, v => if a = k then (a, v) :: rest else (a, b) :: pyInsert rest k v

/-- Model of `list(d.keys())`. -/
def pyKeys {K V : Type} (d : PyDict K V) : List K := d.map Prod.fst

/-- Model of `list(d.values())`. -/
def pyValues {K V : Type} (d : PyDict K V) : List V := d.map Prod.snd

/-- Model of `dict(zip(ks, vs))`. -/
def pyDictOfZip {K V : Type} [DecidableEq K] (ks : List K) (vs : List V) : PyDict K V :=
  (ks.zip vs).foldl (fun d p => pyInsert d p.1 p.2) []

/-! ## The sanitizer (`_sanitize_column_names`, core.py lines 85-109) -/

/-- Characters matching the regex class `[a-z0-9]`. -/
def isLowerAlnum (c : Char) : Bool :=
  ('a' ≤ c && c ≤ 'z') || ('0' ≤ c && c ≤ '9')

/-- Model of `str.lower()` on the ASCII range (`col_name_str.lower()`, line 93).
Non-ASCII case mapping is irrelevant: every character outside `[a-z0-9]`
is replaced by the next step. -/
def pyLower (c : Char) : Char :=
  if 'A' ≤ c && c ≤ 'Z' then Char.ofNat (c.toNat + 32) else c

/-- Worker for `re.sub(r'[^a-z0-9]+', '_', s)` (line 94).  The flag records
whether the previous character was part of a replaced run, so each maximal
run of characters outside `[a-z0-9]` emits a single underscore. -/
def replaceRunsGo : Bool → List Char → List Char
  | _, [] => []
  | prevRep, c :: cs =>
    if isLowerAlnum c then c :: replaceRunsGo false cs
    else if prevRep then replaceRunsGo true cs
    else '_' :: replaceRunsGo true cs

/-- Model of `re.sub(r'[^a-z0-9]+', '_', s)` (line 94). -/
def replaceRuns (s : List Char) : List Char := replaceRunsGo false s

/-- Worker for `re.sub(r'_+', '_', s)` (line 95).  The flag records whether
the previously emitted character was an underscore. -/
def collapseGo : Bool → List Char → List Char
  | _, [] => []
  | prevU, c :: cs =>
    if c = '_' then
      if prevU then collapseGo true cs else '_' :: collapseGo true cs
    else c :: collapseGo false cs

/-- Model of `re.sub(r'_+', '_', s)` (line 95). -/
def collapseUnderscores (s : List Char) : List Char := collapseGo false s

/-- Drops the trailing run of underscores (the right half of
`s.strip('_')`, line 96). -/
def dropTrailingUnderscores : List Char → List Char
  | [] => []
  | c :: cs =>
    match dropTrailingUnderscores cs with
    | [] => if c = '_' then [] else [c]
    | r => c :: r

/-- Model of `s.strip('_')` (line 96): drop the leading and the trailing run of
underscores. -/
def stripUnderscores (s : List Char) : List Char :=
  dropTrailingUnderscores (s.dropWhile (fun c => c = '_'))

/-- Lines 93-96 of `_sanitize_column_names`: the sanitized-but-not-yet-
disambiguated base name of one header. -/
def sanitizeBase (s : Name) : Name :=
  stripUnderscores (collapseUnderscores (replaceRuns (s.map pyLower)))

/-- The loop of `_sanitize_column_names` (lines 88-107).  `seen` is the
`name_count` dict, `i` the running `enumerate` index.  On a duplicate base
name the count is bumped and `'_' + chr(65 + i)` is appended (lines
99-103); otherwise the base name is recorded with count 1 (line 105). -/
def sanitizeAux (seen : PyDict Name Nat) (i : Nat) : List Name → List Name
  | [] => []
  | col :: rest =>
    match pyLookup seen (sanitizeBase col) with
    | some n =>
        (sanitizeBase col ++ ['_', Char.ofNat (65 + i)]) ::
          sanitizeAux (pyInsert seen (sanitizeBase col) (n + 1)) (i + 1) rest
    | none =>
        sanitizeBase col :: sanitizeAux (pyInsert seen (sanitizeBase col) 1) (i + 1) rest

/-- Model of `_sanitize_column_names` (lines 85-109). -/
def sanitize_column_names (column_names : List Name) : List Name :=
  sanitizeAux [] 0 column_names

/-- Model of `true` when a string has no two consecutive underscores. -/
def noDoubleUnderscore : List Char → Bool
  | [] => true
  | c :: cs => (!(c == '_') || !(cs.head? == some '_')) && noDoubleUnderscore cs

/-- The identifier shape promised by the spec for sanitized names: only
`[a-z0-9_]`, no double underscore, no leading or trailing underscore
(vacuously true of the empty string). -/
def cleanIdent (s : List Char) : Bool :=
  s.all (fun c => isLowerAlnum c || c == '_') &&
    noDoubleUnderscore s &&
    !(s.head? == some '_') &&
    !(s.getLast? == some '_')

/-! ## Lemmas about the Python dict model -/

theorem pyLookup_nil {K V : Type} [DecidableEq K] (k : K) :
    pyLookup ([] : PyDict K V) k = none := rfl

theorem pyLookup_pyInsert {K V : Type} [DecidableEq K] (d : PyDict K V) (k k' : K) (v : V) :
    pyLookup (pyInsert d k v) k' = if k = k' then some v else pyLookup d k' := by
  induction d with
  | nil =>
    by_cases h : k = k' <;> simp [pyInsert, pyLookup, h]
  | cons p rest ih =>
    obtain ⟨a, b⟩ := p
    by_cases hak : a = k
    · subst hak
      by_cases h : a = k' <;> simp [pyInsert, pyLookup, h]
    · by_cases h : a = k'
      · subst h
        have : ¬ k = a := fun hh => hak hh.symm
        simp [pyInsert, pyLookup, hak, this]
      · simp [pyInsert, pyLookup, hak, h, ih]

@[simp] theorem pyKeys_nil {K V : Type} : pyKeys ([] : PyDict K V) = [] := rfl

@[simp] theorem pyKeys_cons {K V : Type} (p : K × V) (d : PyDict K V) :
    pyKeys (p :: d) = p.1 :: pyKeys d := rfl

theorem pyKeys_append {K V : Type} (d1 d2 : PyDict K V) :
    pyKeys (d1 ++ d2) = pyKeys d1 ++ pyKeys d2 := List.map_append _ _ _

theorem pyInsert_cons_eq {K V : Type} [DecidableEq K] (a : K) (b : V) (rest : PyDict K V)
    (v : V) : pyInsert ((a, b) :: rest) a v = (a, v) :: rest := by
  simp [pyInsert]

theorem pyInsert_cons_ne {K V : Type} [DecidableEq K] {a k : K} (hak : ¬ a = k) (b : V)
    (rest : PyDict K V) (v : V) :
    pyInsert ((a, b) :: rest) k v = (a, b) :: pyInsert rest k v := by
  simp [pyInsert, hak]

theorem pyLookup_cons_eq {K V : Type} [DecidableEq K] (a : K) (b : V) (rest : PyDict K V) :
    pyLookup ((a, b) :: rest) a = some b := by
  simp [pyLookup]

theorem pyLookup_cons_ne {K V : Type} [DecidableEq K] {a k : K} (hak : ¬ a = k) (b : V)
    (rest : PyDict K V) : pyLookup ((a, b) :: rest) k = pyLookup rest k := by
  simp [pyLookup, hak]

theorem mem_pyKeys_pyInsert {K V : Type} [DecidableEq K] (d : PyDict K V) (k k' : K) (v : V) :
    k' ∈ pyKeys (pyInsert d k v) ↔ k' ∈ pyKeys d ∨ k' = k := by
  induction d with
  | nil => simp [pyInsert]
  | cons p rest ih =>
    obtain ⟨a, b⟩ := p
    by_cases hak : a = k
    · subst hak
      rw [pyInsert_cons_eq, pyKeys_cons, pyKeys_cons]
      simp only [List.mem_cons]
      tauto
    · rw [pyInsert_cons_ne hak, pyKeys_cons, pyKeys_cons]
      simp only [List.mem_cons, ih]
      tauto

theorem pyLookup_isSome_iff {K V : Type} [DecidableEq K] (d : PyDict K V) (k : K) :
    (pyLookup d k).isSome ↔ k ∈ pyKeys d := by
  induction d with
  | nil => simp [pyLookup]
  | cons p rest ih =>
    obtain ⟨a, b⟩ := p
    by_cases h : a = k
    · subst h
      simp [pyLookup]
    · have h' : ¬ k = a := fun hh => h hh.symm
      simp [pyLookup, h, h', ih]

theorem pyLookup_eq_none_iff {K V : Type} [DecidableEq K] (d : PyDict K V) (k : K) :
    pyLookup d k = none ↔ k ∉ pyKeys d := by
  rw [← pyLookup_isSome_iff]
  cases pyLookup d k <;> simp

theorem mem_of_pyLookup_eq_some {K V : Type} [DecidableEq K] {d : PyDict K V} {k : K} {v : V}
    (h : pyLookup d k = some v) : (k, v) ∈ d := by
  induction d with
  | nil => simp [pyLookup] at h
  | cons p rest ih =>
    obtain ⟨a, b⟩ := p
    by_cases hak : a = k
    · subst hak
      rw [pyLookup_cons_eq] at h
      injection h with h
      subst h
      exact List.mem_cons_self _ _
    · simp only [pyLookup, if_neg hak] at h
      exact List.mem_cons_of_mem _ (ih h)

theorem pyLookup_eq_some_of_mem {K V : Type} [DecidableEq K] {d : PyDict K V} {k : K} {v : V}
    (hnd : (pyKeys d).Nodup) (h : (k, v) ∈ d) : pyLookup d k = some v := by
  induction d with
  | nil => simp at h
  | cons p rest ih =>
    obtain ⟨a, b⟩ := p
    rw [pyKeys_cons, List.nodup_cons] at hnd
    rcases List.mem_cons.mp h with h1 | h1
    · injection h1 with h1a h1b
      subst h1a
      subst h1b
      simp [pyLookup]
    · have hak : ¬ a = k := by
        rintro rfl
        exact hnd.1 (List.mem_map.mpr ⟨(a, v), h1, rfl⟩)
      rw [pyLookup_cons_ne hak]
      exact ih hnd.2 h1

theorem pyValues_mem_iff {K V : Type} [DecidableEq K] {d : PyDict K V}
    (hnd : (pyKeys d).Nodup) (v : V) :
    v ∈ pyValues d ↔ ∃ k, pyLookup d k = some v := by
  constructor
  · intro h
    obtain ⟨⟨k, v'⟩, hm, hv⟩ := List.mem_map.mp h
    cases hv
    exact ⟨k, pyLookup_eq_some_of_mem hnd hm⟩
  · rintro ⟨k, hk⟩
    exact List.mem_map.mpr ⟨(k, v), mem_of_pyLookup_eq_some hk, rfl⟩

theorem pyInsert_of_not_mem {K V : Type} [DecidableEq K] {d : PyDict K V} {k : K} (v : V)
    (h : k ∉ pyKeys d) : pyInsert d k v = d ++ [(k, v)] := by
  induction d with
  | nil => rfl
  | cons p rest ih =>
    obtain ⟨a, b⟩ := p
    rw [pyKeys_cons, List.mem_cons] at h
    push_neg at h
    have hak : ¬ a = k := fun hh => h.1 hh.symm
    simp [pyInsert, hak, ih h.2]

theorem pyKeys_nodup_pyInsert {K V : Type} [DecidableEq K] {d : PyDict K V} (k : K) (v : V)
    (hnd : (pyKeys d).Nodup) : (pyKeys (pyInsert d k v)).Nodup := by
  induction d with
  | nil => simp [pyInsert]
  | cons p rest ih =>
    obtain ⟨a, b⟩ := p
    rw [pyKeys_cons, List.nodup_cons] at hnd
    by_cases hak : a = k
    · subst hak
      rw [pyInsert_cons_eq, pyKeys_cons, List.nodup_cons]
      exact hnd
    · rw [pyInsert_cons_ne hak, pyKeys_cons, List.nodup_cons]
      refine ⟨?_, ih hnd.2⟩
      intro hmem
      rcases (mem_pyKeys_pyInsert rest k a v).mp hmem with h | h
      · exact hnd.1 h
      · exact hak h

theorem map_fst_zip_sublist {K V : Type} (ks : List K) (vs : List V) :
    List.Sublist ((ks.zip vs).map Prod.fst) ks := by
  induction ks generalizing vs with
  | nil => simp
  | cons k ks ih =>
    cases vs with
    | nil => simp
    | cons v vs => simpa using List.Sublist.cons₂ k (ih vs)

theorem foldl_pyInsert_fresh {K V : Type} [DecidableEq K] (l : List (K × V)) :
    ∀ (d : PyDict K V), (∀ p ∈ l, p.1 ∉ pyKeys d) → ((l.map Prod.fst).Nodup) →
    l.foldl (fun d p => pyInsert d p.1 p.2) d = d ++ l := by
  induction l with
  | nil => intro d _ _; simp
  | cons p rest ih =>
    intro d hfresh hnd
    rw [List.map_cons, List.nodup_cons] at hnd
    rw [List.foldl_cons, pyInsert_of_not_mem p.2 (hfresh p (List.mem_cons_self p rest))]
    have hfresh2 : ∀ q ∈ rest, q.1 ∉ pyKeys (d ++ [p]) := by
      intro q hq
      rw [pyKeys_append, List.mem_append]
      rintro (h | h)
      · exact hfresh q (List.mem_cons_of_mem _ hq) h
      · simp only [pyKeys_cons, pyKeys_nil, List.mem_singleton] at h
        apply hnd.1
        rw [← h]
        exact List.mem_map_of_mem Prod.fst hq
    rw [ih (d ++ [p]) hfresh2 hnd.2]
    simp

theorem pyDictOfZip_eq_zip {K V : Type} [DecidableEq K] (ks : List K) (vs : List V)
    (h : ks.Nodup) : pyDictOfZip ks vs = ks.zip vs := by
  rw [pyDictOfZip, foldl_pyInsert_fresh (ks.zip vs) [] (by simp)
    (List.Nodup.sublist (map_fst_zip_sublist ks vs) h)]
  simp

theorem pyLookup_zip_self {K V : Type} [DecidableEq K] (ks : List K) (vs : List V)
    (h : ks.Nodup) : ∀ p ∈ ks.zip vs, pyLookup (ks.zip vs) p.1 = some p.2 := by
  induction ks generalizing vs with
  | nil => simp
  | cons k ks ih =>
    cases vs with
    | nil => simp
    | cons v vs =>
      rw [List.nodup_cons] at h
      rintro ⟨a, b⟩ hp
      rw [List.zip_cons_cons] at hp
      rcases List.mem_cons.mp hp with h1 | h1
      · injection h1 with h1a h1b
        subst h1a
        subst h1b
        simp [pyLookup]
      · have hak : ¬ k = a := by
          rintro rfl
          exact h.1 (List.of_mem_zip h1).1
        simp only [List.zip_cons_cons, pyLookup, if_neg hak]
        exact ih vs h.2 ⟨a, b⟩ h1

/-! ## Shape of sanitized base names -/

theorem replaceRunsGo_all (b : Bool) (s : List Char) :
    (replaceRunsGo b s).all (fun c => isLowerAlnum c || c == '_') = true := by
  induction s generalizing b with
  | nil => rfl
  | cons c cs ih =>
    cases h : isLowerAlnum c
    · cases b <;> simp [replaceRunsGo, h, ih]
    · simp [replaceRunsGo, h, ih]

theorem collapseGo_all (p : Char → Bool) (hp : p '_' = true) (s : List Char) :
    ∀ b, s.all p = true → (collapseGo b s).all p = true := by
  induction s with
  | nil => intro b _; rfl
  | cons c cs ih =>
    intro b hs
    rw [List.all_cons, Bool.and_eq_true] at hs
    by_cases h : c = '_'
    · subst h
      cases b with
      | true => simpa [collapseGo] using ih true hs.2
      | false => simp [collapseGo, hp, ih true hs.2]
    · simp [collapseGo, h, hs.1, ih false hs.2]

theorem collapseGo_true_head (s : List Char) :
    ∀ c, (collapseGo true s).head? = some c → c ≠ '_' := by
  induction s with
  | nil => intro c h; simp [collapseGo] at h
  | cons a cs ih =>
    intro c h
    by_cases ha : a = '_'
    · subst ha
      have he : collapseGo true ('_' :: cs) = collapseGo true cs := by simp [collapseGo]
      rw [he] at h
      exact ih c h
    · have he : collapseGo true (a :: cs) = a :: collapseGo false cs := by
        simp [collapseGo, ha]
      rw [he, List.head?_cons] at h
      injection h with h
      subst h
      exact ha

theorem noDoubleUnderscore_collapseGo (s : List Char) :
    ∀ b, noDoubleUnderscore (collapseGo b s) = true := by
  induction s with
  | nil => intro b; rfl
  | cons c cs ih =>
    intro b
    by_cases h : c = '_'
    · subst h
      cases b with
      | true => simpa [collapseGo] using ih true
      | false =>
        have he : collapseGo false ('_' :: cs) = '_' :: collapseGo true cs := by
          simp [collapseGo]
        rw [he, noDoubleUnderscore, Bool.and_eq_true]
        refine ⟨?_, ih true⟩
        cases hh : (collapseGo true cs).head? with
        | none => simp
        | some x =>
          have hx := collapseGo_true_head cs x hh
          simp [hx]
    · have he : collapseGo b (c :: cs) = c :: collapseGo false cs := by
        simp [collapseGo, h]
      rw [he, noDoubleUnderscore, Bool.and_eq_true]
      exact ⟨by simp [h], ih false⟩

theorem all_dropWhile {α : Type} (p q : α → Bool) (s : List α) (h : s.all p = true) :
    (s.dropWhile q).all p = true := by
  rw [List.all_eq_true] at h ⊢
  exact fun x hx => h x ((List.dropWhile_sublist q).subset hx)

theorem noDoubleUnderscore_dropWhile (q : Char → Bool) (s : List Char)
    (h : noDoubleUnderscore s = true) : noDoubleUnderscore (s.dropWhile q) = true := by
  induction s with
  | nil => simpa using h
  | cons c cs ih =>
    rw [List.dropWhile_cons]
    by_cases hq : q c = true
    · rw [if_pos hq]
      apply ih
      rw [noDoubleUnderscore, Bool.and_eq_true] at h
      exact h.2
    · rw [if_neg hq]
      exact h

theorem head_dropWhile_underscore (s : List Char) :
    ∀ c, ((s.dropWhile (fun c => c = '_')).head? = some c) → c ≠ '_' := by
  induction s with
  | nil => intro c h; simp at h
  | cons a cs ih =>
    intro c h
    rw [List.dropWhile_cons] at h
    by_cases ha : a = '_'
    · rw [if_pos (by simp [ha])] at h
      exact ih c h
    · rw [if_neg (by simp [ha])] at h
      rw [List.head?_cons] at h
      injection h with h
      subst h
      exact ha

theorem dropTrailing_cons_eq_nil {c : Char} {cs : List Char}
    (h : dropTrailingUnderscores cs = []) :
    dropTrailingUnderscores (c :: cs) = if c = '_' then [] else [c] := by
  simp only [dropTrailingUnderscores, h]

theorem dropTrailing_cons_eq_cons {c b : Char} {cs r : List Char}
    (h : dropTrailingUnderscores cs = b :: r) :
    dropTrailingUnderscores (c :: cs) = c :: b :: r := by
  simp only [dropTrailingUnderscores, h]

theorem dropTrailing_append (s : List Char) :
    ∃ t, s = dropTrailingUnderscores s ++ t := by
  induction s with
  | nil => exact ⟨[], rfl⟩
  | cons c cs ih =>
    obtain ⟨t, ht⟩ := ih
    cases hr : dropTrailingUnderscores cs with
    | nil =>
      rw [dropTrailing_cons_eq_nil hr]
      by_cases hc : c = '_'
      · rw [if_pos hc]
        exact ⟨c :: cs, rfl⟩
      · rw [if_neg hc]
        exact ⟨cs, rfl⟩
    | cons b r =>
      rw [dropTrailing_cons_eq_cons hr]
      refine ⟨t, ?_⟩
      rw [hr] at ht
      rw [List.cons_append, ← ht]

theorem all_dropTrailing (p : Char → Bool) (s : List Char) (h : s.all p = true) :
    (dropTrailingUnderscores s).all p = true := by
  obtain ⟨t, ht⟩ := dropTrailing_append s
  rw [ht, List.all_append, Bool.and_eq_true] at h
  exact h.1

theorem noDoubleUnderscore_append_left (x t : List Char)
    (h : noDoubleUnderscore (x ++ t) = true) : noDoubleUnderscore x = true := by
  induction x with
  | nil => rfl
  | cons a x ih =>
    rw [List.cons_append, noDoubleUnderscore, Bool.and_eq_true] at h
    rw [noDoubleUnderscore, Bool.and_eq_true]
    refine ⟨?_, ih h.2⟩
    cases x with
    | nil => simp
    | cons b x' => simpa using h.1

theorem noDoubleUnderscore_dropTrailing (s : List Char)
    (h : noDoubleUnderscore s = true) :
    noDoubleUnderscore (dropTrailingUnderscores s) = true := by
  obtain ⟨t, ht⟩ := dropTrailing_append s
  apply noDoubleUnderscore_append_left _ t
  rw [← ht]
  exact h

theorem dropTrailing_head (s : List Char) :
    (dropTrailingUnderscores s).head? = none ∨
      (dropTrailingUnderscores s).head? = s.head? := by
  cases s with
  | nil => exact Or.inl rfl
  | cons c cs =>
    cases hr : dropTrailingUnderscores cs with
    | nil =>
      rw [dropTrailing_cons_eq_nil hr]
      by_cases hc : c = '_'
      · rw [if_pos hc]
        exact Or.inl rfl
      · rw [if_neg hc]
        exact Or.inr rfl
    | cons b r =>
      rw [dropTrailing_cons_eq_cons hr]
      exact Or.inr rfl

theorem dropTrailing_getLast (s : List Char) :
    ∀ c, (dropTrailingUnderscores s).getLast? = some c → c ≠ '_' := by
  induction s with
  | nil => intro c h; simp [dropTrailingUnderscores] at h
  | cons a cs ih =>
    intro c h
    cases hr : dropTrailingUnderscores cs with
    | nil =>
      rw [dropTrailing_cons_eq_nil hr] at h
      by_cases ha : a = '_'
      · rw [if_pos ha] at h
        simp at h
      · rw [if_neg ha] at h
        simp at h
        subst h
        exact ha
    | cons b r =>
      rw [dropTrailing_cons_eq_cons hr, List.getLast?_cons_cons, ← hr] at h
      exact ih c h

theorem stripUnderscores_head (s : List Char) :
    ∀ c, (stripUnderscores s).head? = some c → c ≠ '_' := by
  intro c h
  rw [stripUnderscores] at h
  rcases dropTrailing_head (s.dropWhile (fun c => c = '_')) with h0 | h0
  · rw [h0] at h
    exact absurd h (by simp)
  · rw [h0] at h
    exact head_dropWhile_underscore s c h

theorem cleanIdent_sanitizeBase (s : Name) : cleanIdent (sanitizeBase s) = true := by
  rw [cleanIdent, Bool.and_eq_true, Bool.and_eq_true, Bool.and_eq_true]
  refine ⟨⟨⟨?hall, ?hnd⟩, ?hhead⟩, ?hlast⟩
  case hall =>
    rw [sanitizeBase, stripUnderscores]
    apply all_dropTrailing
    apply all_dropWhile
    rw [collapseUnderscores]
    exact collapseGo_all _ (by decide) _ false (replaceRunsGo_all false _)
  case hnd =>
    rw [sanitizeBase, stripUnderscores]
    apply noDoubleUnderscore_dropTrailing
    apply noDoubleUnderscore_dropWhile
    rw [collapseUnderscores]
    exact noDoubleUnderscore_collapseGo _ false
  case hhead =>
    cases hh : (sanitizeBase s).head? with
    | none => simp [hh]
    | some c =>
      have hc : c ≠ '_' := by
        apply stripUnderscores_head (collapseUnderscores (replaceRuns (s.map pyLower)))
        exact hh
      simp [hh, hc]
  case hlast =>
    cases hh : (sanitizeBase s).getLast? with
    | none => simp [hh]
    | some c =>
      have hc : c ≠ '_' := by
        apply dropTrailing_getLast
        simpa [sanitizeBase, stripUnderscores] using hh
      simp [hh, hc]

/-! ## Characterisation of the sanitizer loop -/

theorem sanitizeAux_length (hs : List Name) : ∀ (seen : PyDict Name Nat) (i : Nat),
    (sanitizeAux seen i hs).length = hs.length := by
  induction hs with
  | nil => intro seen i; rfl
  | cons h rest ih =>
    intro seen i
    cases hl : pyLookup seen (sanitizeBase h) <;>
      simp [sanitizeAux, hl, ih]

theorem sanitize_length (hs : List Name) :
    (sanitize_column_names hs).length = hs.length :=
  sanitizeAux_length hs [] 0

theorem sanitizeAux_getD (hs : List Name) : ∀ (seen : PyDict Name Nat) (i j : Nat),
    j < hs.length →
    (sanitizeAux seen i hs).getD j [] =
      (if (pyLookup seen (sanitizeBase (hs.getD j []))).isSome
          ∨ sanitizeBase (hs.getD j []) ∈ (hs.take j).map sanitizeBase
      then sanitizeBase (hs.getD j []) ++ ['_', Char.ofNat (65 + i + j)]
      else sanitizeBase (hs.getD j [])) := by
  induction hs with
  | nil =>
    intro seen i j hj
    simp at hj
  | cons h rest ih =>
    intro seen i j hj
    cases j with
    | zero =>
      simp only [List.getD_cons_zero, List.take_zero, List.map_nil,
        List.not_mem_nil, or_false, Nat.add_zero]
      cases hl : pyLookup seen (sanitizeBase h) <;>
        simp [sanitizeAux, hl]
    | succ j' =>
      have hj' : j' < rest.length := by simpa using hj
      have harith : 65 + (i + 1) + j' = 65 + i + (j' + 1) := by omega
      simp only [List.getD_cons_succ, List.take_succ_cons, List.map_cons, List.mem_cons]
      cases hl : pyLookup seen (sanitizeBase h) with
      | some n =>
        have hstep : sanitizeAux seen i (h :: rest) =
            (sanitizeBase h ++ ['_', Char.ofNat (65 + i)]) ::
              sanitizeAux (pyInsert seen (sanitizeBase h) (n + 1)) (i + 1) rest := by
          simp [sanitizeAux, hl]
        rw [hstep, List.getD_cons_succ,
          ih (pyInsert seen (sanitizeBase h) (n + 1)) (i + 1) j' hj', harith]
        apply if_congr _ rfl rfl
        rw [pyLookup_pyInsert]
        by_cases he : sanitizeBase h = sanitizeBase (rest.getD j' [])
        · simp [he]
        · have he' : ¬ sanitizeBase (rest.getD j' []) = sanitizeBase h :=
            fun hx => he hx.symm
          have he2 : ¬ sanitizeBase (rest[j']?.getD []) = sanitizeBase h := by
            rw [← List.getD_eq_getElem?_getD]
            exact he'
          have he3 : ¬ sanitizeBase h = sanitizeBase (rest[j']?.getD []) := by
            rw [← List.getD_eq_getElem?_getD]
            exact he
          simp [he2, he3]
      | none =>
        have hstep : sanitizeAux seen i (h :: rest) =
            sanitizeBase h ::
              sanitizeAux (pyInsert seen (sanitizeBase h) 1) (i + 1) rest := by
          simp [sanitizeAux, hl]
        rw [hstep, List.getD_cons_succ,
          ih (pyInsert seen (sanitizeBase h) 1) (i + 1) j' hj', harith]
        apply if_congr _ rfl rfl
        rw [pyLookup_pyInsert]
        by_cases he : sanitizeBase h = sanitizeBase (rest.getD j' [])
        · simp [he]
        · have he' : ¬ sanitizeBase (rest.getD j' []) = sanitizeBase h :=
            fun hx => he hx.symm
          have he2 : ¬ sanitizeBase (rest[j']?.getD []) = sanitizeBase h := by
            rw [← List.getD_eq_getElem?_getD]
            exact he'
          have he3 : ¬ sanitizeBase h = sanitizeBase (rest[j']?.getD []) := by
            rw [← List.getD_eq_getElem?_getD]
            exact he
          simp [he2, he3]

theorem sanitize_getD (hs : List Name) (j : Nat) (hj : j < hs.length) :
    (sanitize_column_names hs).getD j [] =
      (if sanitizeBase (hs.getD j []) ∈ (hs.take j).map sanitizeBase
      then sanitizeBase (hs.getD j []) ++ ['_', Char.ofNat (65 + j)]
      else sanitizeBase (hs.getD j [])) := by
  have h := sanitizeAux_getD hs [] 0 j hj
  rw [sanitize_column_names, h]
  apply if_congr _ rfl rfl
  simp [pyLookup]

/-! ## Facts about the disambiguation suffix characters -/

theorem suffixChar_toNat : ∀ k, k < 32 → (Char.ofNat (65 + k)).toNat = 65 + k := by
  decide

theorem suffixChar_not_alnum : ∀ k, k < 32 → isLowerAlnum (Char.ofNat (65 + k)) = false := by
  decide

theorem getLast_append_pair (b : Name) (c : Char) : (b ++ ['_', c]).getLast? = some c := by
  have h : b ++ ['_', c] = (b ++ ['_']) ++ [c] := by
    rw [List.append_assoc]
    rfl
  rw [h, List.getLast?_concat]

theorem clean_ne_suffix {b1 b2 : Name} {c : Char} (h1 : cleanIdent b1 = true)
    (hc : isLowerAlnum c = false) : b1 ≠ b2 ++ ['_', c] := by
  intro heq
  rw [cleanIdent, Bool.and_eq_true, Bool.and_eq_true, Bool.and_eq_true] at h1
  have hmem : c ∈ b1 := by
    rw [heq]
    simp
  have hch := (List.all_eq_true.mp h1.1.1.1) c hmem
  rw [hc, Bool.false_or] at hch
  have hcu : c = '_' := by simpa using hch
  subst hcu
  have hlast : b1.getLast? = some '_' := by
    rw [heq]
    exact getLast_append_pair b2 '_'
  have h2 := h1.2
  rw [hlast] at h2
  simp at h2

theorem sanitize_getD_ne (hs : List Name) (hlen : hs.length ≤ 32) (i j : Nat)
    (hij : i < j) (hj : j < hs.length) :
    (sanitize_column_names hs).getD i [] ≠ (sanitize_column_names hs).getD j [] := by
  have hi : i < hs.length := Nat.lt_trans hij hj
  have hci : cleanIdent (sanitizeBase (hs.getD i [])) = true := cleanIdent_sanitizeBase _
  have hcj : cleanIdent (sanitizeBase (hs.getD j [])) = true := cleanIdent_sanitizeBase _
  have hich : isLowerAlnum (Char.ofNat (65 + i)) = false :=
    suffixChar_not_alnum i (by omega)
  have hjch : isLowerAlnum (Char.ofNat (65 + j)) = false :=
    suffixChar_not_alnum j (by omega)
  have hmem : sanitizeBase (hs.getD i []) ∈ (hs.take j).map sanitizeBase := by
    apply List.mem_map.mpr
    refine ⟨hs.getD i [], ?_, rfl⟩
    rw [List.getD_eq_getElem hs [] hi]
    apply List.mem_take_iff_getElem.mpr
    exact ⟨i, by omega, rfl⟩
  rw [sanitize_getD hs i hi, sanitize_getD hs j hj]
  by_cases ci : sanitizeBase (hs.getD i []) ∈ (hs.take i).map sanitizeBase <;>
    by_cases cj : sanitizeBase (hs.getD j []) ∈ (hs.take j).map sanitizeBase
  · rw [if_pos ci, if_pos cj]
    intro heq
    have e1 := getLast_append_pair (sanitizeBase (hs.getD i [])) (Char.ofNat (65 + i))
    rw [heq, getLast_append_pair] at e1
    have hlast := Option.some.inj e1
    have t1 := suffixChar_toNat i (by omega)
    have t2 := suffixChar_toNat j (by omega)
    have hn : 65 + j = 65 + i := by
      rw [← t2, ← t1, hlast]
    omega
  · rw [if_pos ci, if_neg cj]
    intro heq
    exact clean_ne_suffix hcj hich heq.symm
  · rw [if_neg ci, if_pos cj]
    exact clean_ne_suffix hci hjch
  · rw [if_neg ci, if_neg cj]
    intro heq
    exact cj (heq ▸ hmem)

/-! ## Claims C1, C2, C4 -/

/-- C1 counterexample: on the input `["Qty", "Qty"]` the second emitted
identifier is `"qty_B"`, whose character `B` falls outside `[a-z0-9_]`, so
the claim that every output element matches `^[a-z0-9_]*$` is false (the
disambiguation suffix of line 102 uses an uppercase `chr(65 + i)`). -/
theorem sanitize_shape_cex :
    (sanitize_column_names ["Qty".toList, "Qty".toList]).length = 2 ∧
    ((sanitize_column_names ["Qty".toList, "Qty".toList]).getD 1 []).all
      (fun c => isLowerAlnum c || c == '_') = false := by
  decide

/-- C1 (amended): `sanitize` preserves the length of the header list, and
every output element is either a clean base name (only `[a-z0-9_]`, no
double underscore, no leading/trailing underscore) or such a base name
followed by an underscore and the character `chr(65 + i)` for its
positional index `i`. -/
theorem sanitize_shape_amended (hs : List Name) (i : Nat) (hi : i < hs.length) :
    (sanitize_column_names hs).length = hs.length ∧
    cleanIdent (sanitizeBase (hs.getD i [])) = true ∧
    ((sanitize_column_names hs).getD i [] = sanitizeBase (hs.getD i []) ∨
      (sanitize_column_names hs).getD i [] =
        sanitizeBase (hs.getD i []) ++ ['_', Char.ofNat (65 + i)]) := by
  refine ⟨sanitize_length hs, cleanIdent_sanitizeBase _, ?_⟩
  rw [sanitize_getD hs i hi]
  by_cases hc : sanitizeBase (hs.getD i []) ∈ (hs.take i).map sanitizeBase
  · rw [if_pos hc]
    exact Or.inr rfl
  · rw [if_neg hc]
    exact Or.inl rfl

/-- Witness for C1 (amended) at the concrete input `["Qty", "Qty"]`,
index 1. -/
theorem sanitize_shape_instance :
    1 < (["Qty".toList, "Qty".toList] : List Name).length ∧
    ((sanitize_column_names ["Qty".toList, "Qty".toList]).length =
        (["Qty".toList, "Qty".toList] : List Name).length ∧
      cleanIdent (sanitizeBase ((["Qty".toList, "Qty".toList] : List Name).getD 1 [])) = true ∧
      ((sanitize_column_names ["Qty".toList, "Qty".toList]).getD 1 [] =
          sanitizeBase ((["Qty".toList, "Qty".toList] : List Name).getD 1 []) ∨
        (sanitize_column_names ["Qty".toList, "Qty".toList]).getD 1 [] =
          sanitizeBase ((["Qty".toList, "Qty".toList] : List Name).getD 1 []) ++
            ['_', Char.ofNat (65 + 1)])) :=
  ⟨by decide, sanitize_shape_amended ["Qty".toList, "Qty".toList] 1 (by decide)⟩

/-- Thirty-three headers.  The base name `"qty"` of the header at position
32 was already seen (position 1), so position 32 emits
`"qty" ++ "_" ++ chr(65 + 32)`, and `chr(97) = 'a'`, giving `"qty_a"` —
which is also the sanitized form of the first header `"qty a"`. -/
def collisionHeaders : List Name :=
  ["qty a".toList, "qty".toList,
   "c02".toList, "c03".toList, "c04".toList, "c05".toList, "c06".toList,
   "c07".toList, "c08".toList, "c09".toList, "c10".toList, "c11".toList,
   "c12".toList, "c13".toList, "c14".toList, "c15".toList, "c16".toList,
   "c17".toList, "c18".toList, "c19".toList, "c20".toList, "c21".toList,
   "c22".toList, "c23".toList, "c24".toList, "c25".toList, "c26".toList,
   "c27".toList, "c28".toList, "c29".toList, "c30".toList, "c31".toList,
   "qty".toList]

/-- C2 counterexample: with 33 headers the emitted identifiers are not
pairwise unique — positions 0 and 32 both hold `"qty_a"` (no re-check of
disambiguated names, and `chr(65 + 32)` is lowercase `a`). -/
theorem sanitize_nodup_cex :
    collisionHeaders.length = 33 ∧
    (sanitize_column_names collisionHeaders).getD 0 [] = "qty_a".toList ∧
    (sanitize_column_names collisionHeaders).getD 32 [] = "qty_a".toList := by
  decide

/-- C2 (amended): for header lists of at most 32 entries the sanitized
identifiers are pairwise unique.  (With 33 or more headers the suffix
character `chr(65 + i)` can be a lowercase letter and collide with a plain
base name; see the counterexample.) -/
theorem sanitize_nodup_amended (hs : List Name) (hlen : hs.length ≤ 32) :
    (sanitize_column_names hs).Nodup := by
  apply List.nodup_iff_injective_get.mpr
  intro a b hab
  by_contra hne
  have hlen2 : (sanitize_column_names hs).length = hs.length := sanitize_length hs
  have hga : ∀ (x : Fin (sanitize_column_names hs).length),
      (sanitize_column_names hs).get x = (sanitize_column_names hs).getD x.1 [] := by
    intro x
    rw [List.getD_eq_getElem _ [] x.2, List.get_eq_getElem]
  rcases Nat.lt_or_ge a.1 b.1 with hlt | hge
  · exact sanitize_getD_ne hs hlen a.1 b.1 hlt (hlen2 ▸ b.2)
      (by rw [← hga a, ← hga b]; exact hab)
  · have hba : b.1 < a.1 := by
      rcases Nat.lt_or_eq_of_le hge with h | h
      · exact h
      · exact absurd (Fin.ext h.symm) hne
    exact sanitize_getD_ne hs hlen b.1 a.1 hba (hlen2 ▸ a.2)
      (by rw [← hga a, ← hga b]; exact hab.symm)

/-- Witness for C2 (amended) at the concrete input `["Qty", "Qty"]`. -/
theorem sanitize_nodup_instance :
    (["Qty".toList, "Qty".toList] : List Name).length ≤ 32 ∧
    (sanitize_column_names ["Qty".toList, "Qty".toList]).Nodup :=
  ⟨by decide, sanitize_nodup_amended ["Qty".toList, "Qty".toList] (by decide)⟩

/-- C4: when the sanitized base name of the header at position `i` already
occurred as the base name of an earlier header, the emitted identifier is
the base name plus `'_'` plus the character `chr(65 + i)` derived from the
positional index (not from the occurrence count). -/
theorem sanitize_positional_suffix (hs : List Name) (i : Nat) (hi : i < hs.length)
    (hdup : sanitizeBase (hs.getD i []) ∈ (hs.take i).map sanitizeBase) :
    (sanitize_column_names hs).getD i [] =
      sanitizeBase (hs.getD i []) ++ ['_', Char.ofNat (65 + i)] := by
  rw [sanitize_getD hs i hi, if_pos hdup]

/-- Witness for C4 at the concrete input `["Qty", "Qty"]`, index 1, with
the claim's concrete example `sanitize(["Qty","Qty"]) = ["qty","qty_B"]`. -/
theorem sanitize_positional_suffix_instance :
    (1 < (["Qty".toList, "Qty".toList] : List Name).length ∧
      sanitizeBase ((["Qty".toList, "Qty".toList] : List Name).getD 1 []) ∈
        ((["Qty".toList, "Qty".toList] : List Name).take 1).map sanitizeBase) ∧
    (sanitize_column_names ["Qty".toList, "Qty".toList]).getD 1 [] =
      sanitizeBase ((["Qty".toList, "Qty".toList] : List Name).getD 1 []) ++
        ['_', Char.ofNat (65 + 1)] ∧
    sanitize_column_names ["Qty".toList, "Qty".toList] = ["qty".toList, "qty_B".toList] :=
  ⟨⟨by decide, by decide⟩,
    sanitize_positional_suffix ["Qty".toList, "Qty".toList] 1 (by decide) (by decide),
    by decide⟩

/-! ## The table model (`ExcelMapper` and `Row`, core.py lines 6-366) -/

/-- The exceptions raised by the mapper: `AttributeError` (unknown field),
`ValueError` (length mismatch), `IndexError` (row index / `rows[0]` on an
empty list). -/
inductive PyErr where
  | attributeError (name : Name)
  | valueError
  | indexError
deriving DecidableEq

/-- A `Row` object: `data` is `self._data` (original-header-keyed record),
`attrs` the dynamically set instance attributes (identifier-keyed). -/
structure PyRow (V : Type) where
  data : PyDict Name (Option V)
  attrs : PyDict Name (Option V)
deriving DecidableEq

instance {V : Type} : Inhabited (PyRow V) := ⟨⟨[], []⟩⟩

/-- An `ExcelMapper` after loading: `column_mapping` maps sanitized name to
original name (line 58); `rows` is the row list. -/
structure Table (V : Type) where
  column_mapping : PyDict Name Name
  rows : List (PyRow V)
deriving DecidableEq

/-- The external spreadsheet: ordered headers plus positional cell rows;
`none` is the absent/`NaN` cell. -/
structure XFile (V : Type) where
  headers : List Name
  cells : List (List (Option V))
deriving DecidableEq

/-- Attribute names every `Row` object owns besides its per-column fields:
the private fields set in `__init__` (lines 323-326), the methods
(`to_dict`, `get_original_column_name`), and a representative set of the
dunder attributes every Python object carries (all of which start with an
underscore, like the private fields). -/
def rowBuiltinAttrs : List Name :=
  ["_data".toList, "_sanitized_columns".toList, "_column_mapping".toList,
   "_original_columns".toList, "to_dict".toList, "get_original_column_name".toList,
   "__init__".toList, "__getattr__".toList, "__repr__".toList, "__class__".toList,
   "__dict__".toList, "__module__".toList, "__doc__".toList]

/-- Model of `Row.__init__` (lines 314-333): one attribute per entry of
`zip(data.keys(), sanitized_columns)`, each set to the cell value under the
original column name.  A `NaN` cell is already the absent value `none` in
the `Option` representation, so the `pd.isna` normalisation (lines
331-332) is the identity here. -/
def mkRow {V : Type} (data : PyDict Name (Option V)) (sanitized_columns : List Name) :
    PyRow V :=
  { data := data,
    attrs := ((pyKeys data).zip sanitized_columns).foldl
      (fun a p => pyInsert a p.2 ((pyLookup data p.1).getD none)) [] }

/-- Model of `hasattr(row, name)`: true for a dynamically set attribute and for the
object's built-in attributes (private fields and methods). -/
def hasattrRow {V : Type} (r : PyRow V) (name : Name) : Bool :=
  (pyLookup r.attrs name).isSome || rowBuiltinAttrs.contains name

/-- Model of `setattr(row, name, value)`. -/
def setattrRow {V : Type} (r : PyRow V) (name : Name) (v : Option V) : PyRow V :=
  { r with attrs := pyInsert r.attrs name v }

/-- Model of `getattr(row, name, None)` reading a per-column field (line 214): the
field's value when set, the `None` fallback otherwise. -/
def getattrD {V : Type} (r : PyRow V) (name : Name) : Option V :=
  (pyLookup r.attrs name).getD none

/-- Model of `_read_excel` (lines 47-69) over the I/O collaborator model:
`pd.read_excel` yields the ordered headers, `df.to_dict('records')` yields
one header-keyed dict per data row (a Python dict, so duplicate header
text collapses, last value winning). -/
def read_excel {V : Type} (f : XFile V) : Table V :=
  { column_mapping := pyDictOfZip (sanitize_column_names f.headers) f.headers,
    rows := f.cells.map (fun row =>
      mkRow (pyDictOfZip f.headers row) (sanitize_column_names f.headers)) }

/-- Lines 210-216 of `save_excel`: one original-header-keyed dict per row,
each field read back with `getattr(row, attr_name, None)`. -/
def save_records {V : Type} (t : Table V) : List (PyDict Name (Option V)) :=
  t.rows.map (fun row =>
    t.column_mapping.foldl (fun rd p => pyInsert rd p.2 (getattrD row p.1)) [])

/-- The ordered union of the record keys: the column inference performed by
`pd.DataFrame(list-of-dicts)` (line 219). -/
def unionKeys {V : Type} (records : List (PyDict Name (Option V))) : List Name :=
  records.foldl (fun acc r => acc ++ (pyKeys r).filter (fun k => !(acc.contains k))) []

/-- Model of `pd.DataFrame(data)` followed by `df.to_excel(file_path, index=False)`
(lines 219-220): the inferred columns become the written header row; a key
missing from a record is written as `NaN`, i.e. read back as absent. -/
def write_excel {V : Type} (records : List (PyDict Name (Option V))) : XFile V :=
  { headers := unionKeys records,
    cells := records.map (fun r =>
      (unionKeys records).map (fun c => (pyLookup r c).getD none)) }

/-- Model of `save_excel` (lines 182-224), restricted to the data it hands to the
I/O collaborator (the destination-path and overwrite checks of lines
201-207 only concern the filesystem). -/
def save_excel {V : Type} (t : Table V) : XFile V :=
  write_excel (save_records t)

/-- Model of `get_column_mapping` (lines 111-127): the dict comprehension
`{original: sanitized for sanitized, original in column_mapping.items()}`. -/
def get_column_mapping {V : Type} (t : Table V) : PyDict Name Name :=
  t.column_mapping.foldl (fun acc p => pyInsert acc p.2 p.1) []

/-- Model of `get_original_columns` (lines 129-140). -/
def get_original_columns {V : Type} (t : Table V) : List Name :=
  pyValues t.column_mapping

/-- Model of `get_attribute_names` (lines 142-153). -/
def get_attribute_names {V : Type} (t : Table V) : List Name :=
  pyKeys t.column_mapping

/-- The `for attr_name, value in kwargs.items()` loop of `update_row`
(lines 246-249): the row is mutated in place and the loop aborts at the
first name that fails `hasattr`, leaving earlier assignments applied. -/
def row_update_loop {V : Type} (r : PyRow V) :
    List (Name × Option V) → PyRow V × Option PyErr
  | [] => (r, none)
  | (a, v) :: rest =>
    if hasattrRow r a then row_update_loop (setattrRow r a v) rest
    else (r, some (PyErr.attributeError a))

/-- Model of `update_row` (lines 227-249): bounds check (line 242, an explicit
check, so negative indices are rejected rather than wrapped), then the
kwargs loop.  The result is the table state after the call together with
the raised error, if any. -/
def update_row {V : Type} (t : Table V) (row_index : Int)
    (kwargs : List (Name × Option V)) : Table V × Option PyErr :=
  if row_index < 0 ∨ (t.rows.length : Int) ≤ row_index then
    (t, some PyErr.indexError)
  else
    let p := row_update_loop (t.rows.getD row_index.toNat default) kwargs
    ({ t with rows := t.rows.set row_index.toNat p.1 }, p.2)

/-- Model of `update_column` (lines 252-274): evaluating `self.rows[0]` raises
`IndexError` on an empty table before anything else; then the
`hasattr` check (line 267), then the length check (line 270), then the
positional overwrite (lines 273-274). -/
def update_column {V : Type} (t : Table V) (column_attr : Name)
    (new_values : List (Option V)) : Except PyErr (Table V) :=
  match t.rows.head? with
  | none => Except.error PyErr.indexError
  | some r0 =>
    if hasattrRow r0 column_attr then
      if new_values.length = t.rows.length then
        Except.ok
          { t with
            rows := (t.rows.zip new_values).map (fun p => setattrRow p.1 column_attr p.2) }
      else Except.error PyErr.valueError
    else Except.error (PyErr.attributeError column_attr)

/-- The kwargs loop of `add_row` (lines 291-294): each supplied name is
checked with `attr_name not in empty_data` — whose keys are the ORIGINAL
column names (line 288) — and assigned into `empty_data` on success. -/
def add_row_loop {V : Type} (ed : PyDict Name (Option V)) :
    List (Name × Option V) → Except PyErr (PyDict Name (Option V))
  | [] => Except.ok ed
  | (a, v) :: rest =>
    if (pyLookup ed a).isSome then add_row_loop (pyInsert ed a v) rest
    else Except.error (PyErr.attributeError a)

/-- Model of `add_row` (lines 277-298): build the all-`None` original-header-keyed
template, run the kwargs loop, then append
`Row(empty_data, list(column_mapping.keys()), column_mapping)`. -/
def add_row {V : Type} (t : Table V) (kwargs : List (Name × Option V)) :
    Except PyErr (Table V) :=
  match add_row_loop ((pyValues t.column_mapping).foldl
      (fun a oc => pyInsert a oc none) []) kwargs with
  | Except.error e => Except.error e
  | Except.ok ed =>
    Except.ok { t with rows := t.rows ++ [mkRow ed (pyKeys t.column_mapping)] }

deriving instance DecidableEq for Except

/-- Model of `Row.to_dict` (lines 339-351): start from a copy of `_data`, then add
every public non-callable attribute that is not already an original
column key.  The public non-callable attributes are exactly the
dynamically set fields whose name does not start with an underscore: the
public built-in attributes (`to_dict`, `get_original_column_name`) are
callable and excluded by the `callable` filter unless shadowed by a set
field, in which case that field already appears in `attrs`. -/
def Row_to_dict {V : Type} (r : PyRow V) : PyDict Name (Option V) :=
  ((pyKeys r.attrs).filter (fun a => !(a.head? == some '_'))).foldl
    (fun res a =>
      if (pyKeys r.data).contains a then res
      else pyInsert res a ((pyLookup r.attrs a).getD none)) r.data


/-! ## Claims C5, C9, C6 -/

/-- C5: `add_row` checks the supplied field names against the ORIGINAL
column names (`empty_data` of line 288 is keyed by
`column_mapping.values()`), not against the identifiers.  On a table whose
only column is "Transaction ID" (identifier `transaction_id`), supplying
the recognized identifier `transaction_id` raises the unknown-field
`AttributeError` — contradicting the claim, the spec (§4.2), and the code's
own docstring example `mapper.add_row(transaction_id=...)` (line 285). -/
theorem add_row_checks_original_names :
    "transaction_id".toList ∈
      pyKeys (read_excel (⟨["Transaction ID".toList], [[some 0]]⟩ : XFile Nat)).column_mapping ∧
    add_row (read_excel (⟨["Transaction ID".toList], [[some 0]]⟩ : XFile Nat))
      [("transaction_id".toList, some 1)] =
      Except.error (PyErr.attributeError "transaction_id".toList) := by
  decide

/-- C9 counterexample: on a zero-row table, `update_column` with an
identifier that is not part of the column set and an empty value list does
NOT silently pass — evaluating `self.rows[0]` raises `IndexError`, so the
claim's "silently allows the unknown identifier through" is false. -/
theorem update_column_empty_cex :
    update_column (read_excel (⟨["Qty".toList], []⟩ : XFile Nat)) "bogus".toList [] =
      Except.error PyErr.indexError := by
  decide

/-- C9 (amended): on a table with zero rows, `update_column` raises
`IndexError` from evaluating `self.rows[0]` before any field-existence
check, whatever the identifier and the value list; it neither raises an
unknown-field error nor silently succeeds. -/
theorem update_column_empty_amended {V : Type} (t : Table V) (column_attr : Name)
    (new_values : List (Option V)) (h : t.rows = []) :
    update_column t column_attr new_values = Except.error PyErr.indexError := by
  simp [update_column, h]

/-- Witness for C9 (amended) on a concrete zero-row table with a known
identifier. -/
theorem update_column_empty_instance :
    (read_excel (⟨["Qty".toList], []⟩ : XFile Nat)).rows = [] ∧
    update_column (read_excel (⟨["Qty".toList], []⟩ : XFile Nat)) "qty".toList [some 3] =
      Except.error PyErr.indexError :=
  ⟨by decide, update_column_empty_amended _ _ _ (by decide)⟩

/-- C6 counterexample: two length-mismatched calls that do not fail with
the length-mismatch error — on a zero-row table a recognized identifier
raises `IndexError` (from `self.rows[0]`), and on a one-row table an
unknown identifier raises `AttributeError` (checked before the length). -/
theorem update_column_mismatch_cex :
    update_column (read_excel (⟨["Qty".toList], []⟩ : XFile Nat)) "qty".toList [some 0] =
      Except.error PyErr.indexError ∧
    update_column (read_excel (⟨["Qty".toList], [[some 0]]⟩ : XFile Nat)) "bogus".toList
      [some 0, some 1] = Except.error (PyErr.attributeError "bogus".toList) := by
  decide

/-- C6 (amended): on a table with at least one row, for an identifier that
is a field of the first row, `update_column` with a value list whose
length differs from the row count fails with the length-mismatch
`ValueError`; both checks precede the overwrite loop, so no row is
modified (the returned state is an error, not a new table). -/
theorem update_column_mismatch_amended {V : Type} (t : Table V) (column_attr : Name)
    (new_values : List (Option V)) (r0 : PyRow V) (h0 : t.rows.head? = some r0)
    (hattr : hasattrRow r0 column_attr = true)
    (hlen : new_values.length ≠ t.rows.length) :
    update_column t column_attr new_values = Except.error PyErr.valueError := by
  simp [update_column, h0, hattr, hlen]

/-- Witness for C6 (amended) on a concrete one-row table with the known
identifier `qty` and an empty value list. -/
theorem update_column_mismatch_instance :
    ((read_excel (⟨["Qty".toList], [[some 0]]⟩ : XFile Nat)).rows.head? =
        some ((read_excel (⟨["Qty".toList], [[some 0]]⟩ : XFile Nat)).rows.getD 0 default) ∧
      hasattrRow ((read_excel (⟨["Qty".toList], [[some 0]]⟩ : XFile Nat)).rows.getD 0 default)
        "qty".toList = true ∧
      ([] : List (Option Nat)).length ≠
        (read_excel (⟨["Qty".toList], [[some 0]]⟩ : XFile Nat)).rows.length) ∧
    update_column (read_excel (⟨["Qty".toList], [[some 0]]⟩ : XFile Nat)) "qty".toList [] =
      Except.error PyErr.valueError :=
  ⟨⟨by decide, by decide, by decide⟩,
    update_column_mismatch_amended _ _ _
      ((read_excel (⟨["Qty".toList], [[some 0]]⟩ : XFile Nat)).rows.getD 0 default)
      (by decide) (by decide) (by decide)⟩

/-! ## Claim C7: `update_row` -/

theorem hasattr_setattr {V : Type} (r : PyRow V) (a b : Name) (v : Option V) :
    hasattrRow (setattrRow r a v) b = (hasattrRow r b || b == a) := by
  simp only [hasattrRow, setattrRow]
  rw [pyLookup_pyInsert]
  by_cases h : a = b
  · subst h
    simp
  · have h' : b ≠ a := fun hh => h hh.symm
    have hb : (b == a) = false := beq_eq_false_iff_ne.mpr h'
    rw [if_neg h, hb, Bool.or_false]

theorem row_update_loop_err {V : Type} (kwargs : List (Name × Option V)) :
    ∀ (r : PyRow V),
      ((row_update_loop r kwargs).2 ≠ none ↔
        ∃ p ∈ kwargs, hasattrRow r p.1 = false) := by
  induction kwargs with
  | nil =>
    intro r
    simp [row_update_loop]
  | cons q rest ih =>
    intro r
    obtain ⟨a, v⟩ := q
    by_cases h : hasattrRow r a = true
    · have hred : row_update_loop r ((a, v) :: rest) =
          row_update_loop (setattrRow r a v) rest := by
        simp [row_update_loop, h]
      rw [hred, ih (setattrRow r a v)]
      constructor
      · rintro ⟨p, hp, hfalse⟩
        refine ⟨p, List.mem_cons_of_mem _ hp, ?_⟩
        rw [hasattr_setattr] at hfalse
        exact (Bool.or_eq_false_iff.mp hfalse).1
      · rintro ⟨p, hp, hfalse⟩
        rcases List.mem_cons.mp hp with h1 | h1
        · rw [h1] at hfalse
          exact absurd h (by rw [hfalse]; simp)
        · refine ⟨p, h1, ?_⟩
          rw [hasattr_setattr]
          apply Bool.or_eq_false_iff.mpr
          refine ⟨hfalse, ?_⟩
          by_cases hpa : p.1 = a
          · rw [hpa] at hfalse
            rw [hfalse] at h
            exact absurd h (by simp)
          · exact beq_eq_false_iff_ne.mpr hpa
    · have hf : hasattrRow r a = false := by
        cases hh : hasattrRow r a
        · rfl
        · exact absurd hh h
      have hred : row_update_loop r ((a, v) :: rest) =
          (r, some (PyErr.attributeError a)) := by
        simp [row_update_loop, hf]
      rw [hred]
      constructor
      · intro _
        exact ⟨(a, v), List.mem_cons_self _ _, hf⟩
      · intro _
        simp

theorem row_update_loop_ok {V : Type} (kwargs : List (Name × Option V)) :
    ∀ (r : PyRow V),
      (∀ p ∈ kwargs, (pyLookup r.attrs p.1).isSome) →
      (kwargs.map Prod.fst).Nodup →
      (row_update_loop r kwargs).2 = none ∧
      (∀ a v, (a, v) ∈ kwargs → pyLookup (row_update_loop r kwargs).1.attrs a = some v) ∧
      (∀ a, a ∉ kwargs.map Prod.fst →
        pyLookup (row_update_loop r kwargs).1.attrs a = pyLookup r.attrs a) := by
  induction kwargs with
  | nil =>
    intro r _ _
    refine ⟨rfl, ?_, fun a _ => rfl⟩
    intro a v h
    simp at h
  | cons q rest ih =>
    intro r hsome hnd
    obtain ⟨a, v⟩ := q
    rw [List.map_cons, List.nodup_cons] at hnd
    have ha : hasattrRow r a = true := by
      rw [hasattrRow, Bool.or_eq_true]
      exact Or.inl (hsome (a, v) (List.mem_cons_self _ _))
    have hred : row_update_loop r ((a, v) :: rest) =
        row_update_loop (setattrRow r a v) rest := by
      simp [row_update_loop, ha]
    have hsome2 : ∀ p ∈ rest, (pyLookup (setattrRow r a v).attrs p.1).isSome := by
      intro p hp
      simp only [setattrRow]
      rw [pyLookup_pyInsert]
      by_cases hpa : a = p.1
      · rw [if_pos hpa]
        rfl
      · rw [if_neg hpa]
        exact hsome p (List.mem_cons_of_mem _ hp)
    obtain ⟨he, hset, hunset⟩ := ih (setattrRow r a v) hsome2 hnd.2
    rw [hred]
    refine ⟨he, ?_, ?_⟩
    · intro a' v' hmem
      rcases List.mem_cons.mp hmem with h1 | h1
      · injection h1 with h1a h1b
        subst h1a
        subst h1b
        rw [hunset a' hnd.1]
        simp only [setattrRow]
        rw [pyLookup_pyInsert, if_pos rfl]
      · exact hset a' v' h1
    · intro a' hnm
      rw [List.map_cons, List.mem_cons] at hnm
      push_neg at hnm
      rw [hunset a' hnm.2]
      simp only [setattrRow]
      rw [pyLookup_pyInsert, if_neg (fun hh => hnm.1 hh.symm)]

/-- C7 counterexample: `to_dict` is not a recognized identifier of the
table's column set, yet `update_row` accepts it without an unknown-field
error, because `hasattr` is also true for the row's built-in attributes
(methods and private fields). -/
theorem update_row_fields_cex :
    "to_dict".toList ∉
      pyKeys (read_excel (⟨["Qty".toList], [[some 0]]⟩ : XFile Nat)).column_mapping ∧
    (update_row (read_excel (⟨["Qty".toList], [[some 0]]⟩ : XFile Nat)) 0
      [("to_dict".toList, some 7)]).2 = none := by
  decide

/-- C7 (amended): for an in-range row index, `update_row` fails with an
unknown-field error iff some supplied field name is not an attribute of
the row — the recognized identifiers together with the row object's
built-in attribute names (so an unknown identifier that names a method,
like `to_dict`, is accepted).  When every supplied name is a set field of
the row and the supplied names are distinct, the call succeeds, overwrites
exactly the supplied fields on that row, and leaves every other row
unchanged. -/
theorem update_row_fields_amended {V : Type} (t : Table V) (i : Nat)
    (hi : i < t.rows.length) (kwargs : List (Name × Option V)) :
    ((update_row t i kwargs).2 ≠ none ↔
      ∃ p ∈ kwargs, hasattrRow (t.rows.getD i default) p.1 = false) ∧
    ((∀ p ∈ kwargs, (pyLookup (t.rows.getD i default).attrs p.1).isSome) →
      (kwargs.map Prod.fst).Nodup →
      (update_row t i kwargs).2 = none ∧
      (∀ a v, (a, v) ∈ kwargs →
        pyLookup ((update_row t i kwargs).1.rows.getD i default).attrs a = some v) ∧
      (∀ a, a ∉ kwargs.map Prod.fst →
        pyLookup ((update_row t i kwargs).1.rows.getD i default).attrs a =
          pyLookup (t.rows.getD i default).attrs a) ∧
      (∀ j, j ≠ i →
        (update_row t i kwargs).1.rows.getD j default = t.rows.getD j default)) := by
  have hcond : ¬(((i : Nat) : Int) < 0 ∨ (t.rows.length : Int) ≤ ((i : Nat) : Int)) := by
    push_neg
    constructor <;> omega
  have hred : update_row t i kwargs =
      ({ t with rows := t.rows.set i (row_update_loop (t.rows.getD i default) kwargs).1 },
        (row_update_loop (t.rows.getD i default) kwargs).2) := by
    rw [update_row, if_neg hcond]
    simp only [Int.toNat_ofNat]
  rw [hred]
  constructor
  · exact row_update_loop_err kwargs (t.rows.getD i default)
  · intro hsome hnd
    obtain ⟨he, hset, hunset⟩ :=
      row_update_loop_ok kwargs (t.rows.getD i default) hsome hnd
    have hgetset :
        ({ t with rows :=
            t.rows.set i (row_update_loop (t.rows.getD i default) kwargs).1 } :
          Table V).rows.getD i default =
          (row_update_loop (t.rows.getD i default) kwargs).1 := by
      show (t.rows.set i _).getD i default = _
      rw [List.getD_eq_getElem _ default (by rw [List.length_set]; exact hi)]
      exact List.getElem_set_self _
    refine ⟨he, ?_, ?_, ?_⟩
    · intro a v hm
      rw [hgetset]
      exact hset a v hm
    · intro a hnm
      rw [hgetset]
      exact hunset a hnm
    · intro j hj
      show (t.rows.set i _).getD j default = t.rows.getD j default
      rw [List.getD_eq_getElem?_getD, List.getD_eq_getElem?_getD,
        List.getElem?_set_ne (show i ≠ j from fun hh => hj hh.symm)]
      exact (List.getD_eq_getElem?_getD _ _ _).symm

/-- A concrete one-column, one-row loaded table used by the witnesses. -/
def qtyTable : Table Nat := read_excel ⟨["Qty".toList], [[some 0]]⟩

/-- Witness for C7 (amended) on `qtyTable`, row 0, updating the recognized
identifier `qty`. -/
theorem update_row_fields_instance :
    0 < qtyTable.rows.length ∧
    (((update_row qtyTable 0 [("qty".toList, some 5)]).2 ≠ none ↔
      ∃ p ∈ [("qty".toList, some 5)],
        hasattrRow (qtyTable.rows.getD 0 default) p.1 = false) ∧
    ((∀ p ∈ [("qty".toList, some 5)],
        (pyLookup (qtyTable.rows.getD 0 default).attrs p.1).isSome) →
      ([("qty".toList, some 5)].map Prod.fst).Nodup →
      (update_row qtyTable 0 [("qty".toList, some 5)]).2 = none ∧
      (∀ a v, (a, v) ∈ [("qty".toList, some 5)] →
        pyLookup ((update_row qtyTable 0 [("qty".toList, some 5)]).1.rows.getD 0
          default).attrs a = some v) ∧
      (∀ a, a ∉ [("qty".toList, some 5)].map Prod.fst →
        pyLookup ((update_row qtyTable 0 [("qty".toList, some 5)]).1.rows.getD 0
          default).attrs a = pyLookup (qtyTable.rows.getD 0 default).attrs a) ∧
      (∀ j, j ≠ 0 →
        (update_row qtyTable 0 [("qty".toList, some 5)]).1.rows.getD j default =
          qtyTable.rows.getD j default))) :=
  ⟨by decide, update_row_fields_amended qtyTable 0 (by decide) [("qty".toList, some 5)]⟩

/-! ## Claim C8: `Row.to_dict` -/

theorem to_dict_fold {V : Type} (r : PyRow V) (L : List Name) :
    ∀ (res : PyDict Name (Option V)), L.Nodup → ∀ k,
      pyLookup (L.foldl (fun res a =>
          if (pyKeys r.data).contains a then res
          else pyInsert res a ((pyLookup r.attrs a).getD none)) res) k =
        (if k ∈ L ∧ ¬ k ∈ pyKeys r.data
        then some ((pyLookup r.attrs k).getD none)
        else pyLookup res k) := by
  induction L with
  | nil =>
    intro res _ k
    simp
  | cons a L ih =>
    intro res hnd k
    rw [List.nodup_cons] at hnd
    rw [List.foldl_cons]
    by_cases hd : (pyKeys r.data).contains a = true
    · rw [if_pos hd, ih res hnd.2 k]
      by_cases hkL : k ∈ L ∧ ¬ k ∈ pyKeys r.data
      · rw [if_pos hkL, if_pos ⟨List.mem_cons_of_mem _ hkL.1, hkL.2⟩]
      · rw [if_neg hkL, if_neg ?_]
        rintro ⟨hc1, hc2⟩
        apply hkL
        rcases List.mem_cons.mp hc1 with h1 | h1
        · subst h1
          exact absurd (List.elem_iff.mp hd) hc2
        · exact ⟨h1, hc2⟩
    · rw [if_neg hd, ih (pyInsert res a ((pyLookup r.attrs a).getD none)) hnd.2 k]
      by_cases hkL : k ∈ L ∧ ¬ k ∈ pyKeys r.data
      · rw [if_pos hkL, if_pos ⟨List.mem_cons_of_mem _ hkL.1, hkL.2⟩]
      · rw [if_neg hkL, pyLookup_pyInsert]
        by_cases hka : a = k
        · subst hka
          rw [if_pos rfl, if_pos ⟨List.mem_cons_self _ _,
            fun hm => hd (List.elem_iff.mpr hm)⟩]
        · rw [if_neg hka, if_neg ?_]
          rintro ⟨hc1, hc2⟩
          rcases List.mem_cons.mp hc1 with h1 | h1
          · exact hka h1.symm
          · exact hkL ⟨h1, hc2⟩

/-- C8 (amended): `to_dict` returns the union of the original-header-keyed
data and the public identifier-keyed fields, but for a field name present
in both, the ORIGINAL-header-keyed data value takes precedence (the loop
of line 348 skips attributes already among the original columns, so a
later update to the identifier field is not reflected). -/
theorem to_dict_precedence_amended {V : Type} (r : PyRow V) (k : Name)
    (hnd : (pyKeys r.attrs).Nodup) :
    pyLookup (Row_to_dict r) k =
      (if k ∈ pyKeys r.data then pyLookup r.data k
      else if (pyLookup r.attrs k).isSome ∧ k.head? ≠ some '_'
      then pyLookup r.attrs k
      else none) := by
  rw [Row_to_dict, to_dict_fold r _ r.data (List.Nodup.filter _ hnd) k]
  by_cases hd : k ∈ pyKeys r.data
  · have hnc : ¬ (k ∈ (pyKeys r.attrs).filter (fun a => !(a.head? == some '_')) ∧
        ¬ k ∈ pyKeys r.data) := by
      rintro ⟨_, hc⟩
      exact hc hd
    rw [if_pos hd, if_neg hnc]
  · rw [if_neg hd]
    by_cases hk : (pyLookup r.attrs k).isSome ∧ k.head? ≠ some '_'
    · have hmem : k ∈ (pyKeys r.attrs).filter (fun a => !(a.head? == some '_')) := by
        apply List.mem_filter.mpr
        refine ⟨(pyLookup_isSome_iff _ _).mp hk.1, ?_⟩
        have hb : (k.head? == some '_') = false := beq_eq_false_iff_ne.mpr hk.2
        simp [hb]
      rw [if_pos hk, if_pos ⟨hmem, hd⟩]
      obtain ⟨v, hv⟩ := Option.isSome_iff_exists.mp hk.1
      rw [hv]
      rfl
    · have hnc : ¬ (k ∈ (pyKeys r.attrs).filter (fun a => !(a.head? == some '_')) ∧
          ¬ k ∈ pyKeys r.data) := by
        rintro ⟨hmem, _⟩
        apply hk
        have hm := List.mem_filter.mp hmem
        refine ⟨(pyLookup_isSome_iff _ _).mpr hm.1, ?_⟩
        have hb := hm.2
        cases hbb : (k.head? == some '_') with
        | false => exact beq_eq_false_iff_ne.mp hbb
        | true =>
          rw [hbb] at hb
          simp at hb
      rw [if_neg hk, if_neg hnc]
      exact (pyLookup_eq_none_iff _ _).mpr hd

/-- C8 counterexample: a header that is already a valid identifier
(`"qty"`), with load value `1`; after updating the identifier field to `2`,
the name is present both among the original data keys and as an identifier
field with current value `2`, yet `to_dict` returns the stale original
value `1` — the identifier-keyed entry does NOT take precedence. -/
theorem to_dict_precedence_cex :
    ("qty".toList ∈ pyKeys ((update_row
        (read_excel (⟨["qty".toList], [[some 1]]⟩ : XFile Nat)) 0
        [("qty".toList, some 2)]).1.rows.getD 0 default).data ∧
      pyLookup ((update_row (read_excel (⟨["qty".toList], [[some 1]]⟩ : XFile Nat)) 0
        [("qty".toList, some 2)]).1.rows.getD 0 default).attrs "qty".toList =
        some (some 2)) ∧
    pyLookup (Row_to_dict ((update_row
        (read_excel (⟨["qty".toList], [[some 1]]⟩ : XFile Nat)) 0
        [("qty".toList, some 2)]).1.rows.getD 0 default)) "qty".toList =
      some (some 1) := by
  decide

/-- Witness for C8 (amended) on the row of `qtyTable` at the key `qty`. -/
theorem to_dict_precedence_instance :
    (pyKeys (qtyTable.rows.getD 0 default).attrs).Nodup ∧
    pyLookup (Row_to_dict (qtyTable.rows.getD 0 default)) "qty".toList =
      (if "qty".toList ∈ pyKeys (qtyTable.rows.getD 0 default).data
      then pyLookup (qtyTable.rows.getD 0 default).data "qty".toList
      else if (pyLookup (qtyTable.rows.getD 0 default).attrs "qty".toList).isSome ∧
          ("qty".toList).head? ≠ some '_'
      then pyLookup (qtyTable.rows.getD 0 default).attrs "qty".toList
      else none) :=
  ⟨by decide, to_dict_precedence_amended _ _ (by decide)⟩

/-! ## Claim C3: the save/load round trip -/

theorem foldl_insert_zip {V : Type} (ks : List Name) :
    ∀ (ss : List Name) (vs : List (Option V)) (data : PyDict Name (Option V))
      (acc : PyDict Name (Option V)),
      ks.length = ss.length → ks.length = vs.length →
      (∀ p ∈ ks.zip vs, pyLookup data p.1 = some p.2) →
      ss.Nodup → (∀ x ∈ ss, ¬ x ∈ pyKeys acc) →
      (ks.zip ss).foldl (fun a p => pyInsert a p.2 ((pyLookup data p.1).getD none)) acc =
        acc ++ ss.zip vs := by
  induction ks with
  | nil =>
    intro ss vs data acc h1 _ _ _ _
    cases ss with
    | nil => simp
    | cons s ss' => simp at h1
  | cons k ks ih =>
    intro ss vs data acc h1 h2 hdata hnd hfresh
    cases ss with
    | nil => simp at h1
    | cons s ss' =>
      cases vs with
      | nil => simp at h2
      | cons v vs' =>
        rw [List.nodup_cons] at hnd
        rw [List.zip_cons_cons, List.foldl_cons]
        have hv : pyLookup data k = some v :=
          hdata (k, v) (by rw [List.zip_cons_cons]; exact List.mem_cons_self _ _)
        have hins : pyInsert acc s ((pyLookup data k).getD none) = acc ++ [(s, v)] := by
          rw [hv]
          exact pyInsert_of_not_mem _ (hfresh s (List.mem_cons_self _ _))
        rw [hins, ih ss' vs' data (acc ++ [(s, v)]) (by simpa using h1) (by simpa using h2)
          (fun p hp => hdata p (by rw [List.zip_cons_cons]; exact List.mem_cons_of_mem _ hp))
          hnd.2 ?fresh]
        · rw [List.append_assoc, List.zip_cons_cons]
          rfl
        case fresh =>
          intro x hx
          rw [pyKeys_append, List.mem_append]
          rintro (h | h)
          · exact hfresh x (List.mem_cons_of_mem _ hx) h
          · simp at h
            exact hnd.1 (h ▸ hx)

theorem unionKeys_go {V : Type} (hs : List Name) :
    ∀ (records : List (PyDict Name (Option V))), (∀ r ∈ records, pyKeys r = hs) →
      records.foldl (fun acc r => acc ++ (pyKeys r).filter (fun k => !(acc.contains k))) hs =
        hs := by
  intro records
  induction records with
  | nil => intro _; rfl
  | cons r rs ih =>
    intro hkeys
    rw [List.foldl_cons]
    have hstep : hs ++ (pyKeys r).filter (fun k => !(hs.contains k)) = hs := by
      rw [hkeys r (List.mem_cons_self _ _)]
      rw [List.filter_eq_nil_iff.mpr ?all, List.append_nil]
      case all =>
        intro a ha
        have hc : hs.contains a = true := List.elem_iff.mpr ha
        simp [hc]
        exact ha
    rw [hstep]
    exact ih (fun q hq => hkeys q (List.mem_cons_of_mem _ hq))

theorem unionKeys_const {V : Type} (hs : List Name)
    (records : List (PyDict Name (Option V))) (hne : records ≠ [])
    (hkeys : ∀ r ∈ records, pyKeys r = hs) : unionKeys records = hs := by
  cases records with
  | nil => exact absurd rfl hne
  | cons r rs =>
    rw [unionKeys, List.foldl_cons]
    have h0 : ([] : List Name) ++ (pyKeys r).filter (fun k => !(List.contains [] k)) = hs := by
      rw [List.nil_append, hkeys r (List.mem_cons_self _ _)]
      apply List.filter_eq_self.mpr
      intro a _
      rfl
    rw [h0]
    exact unionKeys_go hs rs (fun q hq => hkeys q (List.mem_cons_of_mem _ hq))

theorem map_lookup_zip {V : Type} (ks : List Name) :
    ∀ (vs : List (Option V)), ks.Nodup → ks.length = vs.length →
      ks.map (fun k => (pyLookup (ks.zip vs) k).getD none) = vs := by
  induction ks with
  | nil =>
    intro vs _ hlen
    cases vs with
    | nil => rfl
    | cons v vs' => simp at hlen
  | cons k ks ih =>
    intro vs hnd hlen
    cases vs with
    | nil => simp at hlen
    | cons v vs' =>
      rw [List.nodup_cons] at hnd
      rw [List.zip_cons_cons, List.map_cons, pyLookup_cons_eq]
      have hmaps : ks.map (fun x => (pyLookup ((k, v) :: ks.zip vs') x).getD none) =
          ks.map (fun x => (pyLookup (ks.zip vs') x).getD none) := by
        apply List.map_congr_left
        intro x hx
        have hkx : ¬ k = x := fun hh => hnd.1 (hh ▸ hx)
        rw [pyLookup_cons_ne hkx]
      rw [hmaps, ih vs' hnd.2 (by simpa using hlen)]
      rfl

theorem save_excel_read_excel {V : Type} (hs : List Name) (cells : List (List (Option V)))
    (h1 : hs.Nodup) (h2 : (sanitize_column_names hs).Nodup) (h3 : cells ≠ [])
    (h4 : ∀ row ∈ cells, row.length = hs.length) :
    save_excel (read_excel (⟨hs, cells⟩ : XFile V)) = ⟨hs, cells⟩ := by
  have hss : (sanitize_column_names hs).length = hs.length := sanitize_length hs
  have hcm : pyDictOfZip (sanitize_column_names hs) hs = (sanitize_column_names hs).zip hs :=
    pyDictOfZip_eq_zip _ hs h2
  have hrow : ∀ c ∈ cells,
      ((sanitize_column_names hs).zip hs).foldl
        (fun rd p => pyInsert rd p.2
          (getattrD (mkRow (pyDictOfZip hs c) (sanitize_column_names hs)) p.1)) [] =
      hs.zip c := by
    intro c hc
    have hclen : c.length = hs.length := h4 c hc
    have hdata : pyDictOfZip hs c = hs.zip c := pyDictOfZip_eq_zip hs c h1
    have hkeys : pyKeys (hs.zip c) = hs := List.map_fst_zip hs c (le_of_eq hclen.symm)
    have hattrs : (mkRow (pyDictOfZip hs c) (sanitize_column_names hs)).attrs =
        (sanitize_column_names hs).zip c := by
      simp only [mkRow]
      rw [hdata, hkeys]
      rw [foldl_insert_zip hs (sanitize_column_names hs) c (hs.zip c) []
        hss.symm hclen.symm (pyLookup_zip_self hs c h1) h2 (by simp)]
      rw [List.nil_append]
    simp only [getattrD, hattrs]
    rw [foldl_insert_zip (sanitize_column_names hs) hs c ((sanitize_column_names hs).zip c) []
      hss (hss.trans hclen.symm) (pyLookup_zip_self _ c h2) h1 (by simp)]
    rw [List.nil_append]
  have hrecords : save_records (read_excel (⟨hs, cells⟩ : XFile V)) =
      cells.map (fun c => hs.zip c) := by
    simp only [save_records, read_excel, List.map_map, hcm, Function.comp]
    apply List.map_congr_left
    intro c hc
    exact hrow c hc
  have hkeysall : ∀ r ∈ cells.map (fun c => hs.zip c), pyKeys r = hs := by
    intro r hr
    obtain ⟨c, hc, rfl⟩ := List.mem_map.mp hr
    exact List.map_fst_zip hs c (le_of_eq (h4 c hc).symm)
  have hne2 : cells.map (fun c => hs.zip c) ≠ [] := by
    intro hnil
    exact h3 (List.map_eq_nil_iff.mp hnil)
  have hunion : unionKeys (cells.map (fun c => hs.zip c)) = hs :=
    unionKeys_const hs _ hne2 hkeysall
  rw [save_excel, hrecords, write_excel, hunion]
  refine congrArg (XFile.mk hs) ?_
  rw [List.map_map]
  have hcells : ∀ c ∈ cells,
      hs.map (fun col => (pyLookup (hs.zip c) col).getD none) = c := by
    intro c hc
    exact map_lookup_zip hs c h1 (h4 c hc).symm
  calc cells.map ((fun r => hs.map (fun c => (pyLookup r c).getD none)) ∘ fun c => hs.zip c)
      = cells.map id := by
        apply List.map_congr_left
        intro c hc
        simp only [Function.comp, id]
        exact hcells c hc
    _ = cells := List.map_id cells

/-- C3 counterexample: two save/reload runs whose reloaded table differs
from the first load.  (i) With duplicate header text ("Qty", "Qty") the
record dicts collapse the two columns, `save_excel` writes a single "Qty"
column, and the reloaded table has one original column instead of two.
(ii) A zero-row table loses its column entirely: `pd.DataFrame` of an
empty record list has no columns, so reloading yields no headers. -/
theorem roundtrip_cex :
    get_original_columns (read_excel (save_excel (read_excel
        (⟨["Qty".toList, "Qty".toList], [[some 0, some 1]]⟩ : XFile Nat)))) ≠
      get_original_columns (read_excel
        (⟨["Qty".toList, "Qty".toList], [[some 0, some 1]]⟩ : XFile Nat)) ∧
    get_original_columns (read_excel (save_excel (read_excel
        (⟨["A".toList], []⟩ : XFile Nat)))) ≠
      get_original_columns (read_excel (⟨["A".toList], []⟩ : XFile Nat)) := by
  decide

/-- C3 (amended): for a spreadsheet whose headers are pairwise distinct,
whose sanitized identifiers are pairwise distinct, with at least one data
row and rectangular cells, saving the freshly loaded table writes back
exactly the original file, and reloading it yields a table identical to
the first load (same original headers, same identifiers, same cell values,
absent cells still absent). -/
theorem roundtrip_amended {V : Type} (hs : List Name) (cells : List (List (Option V)))
    (h1 : hs.Nodup) (h2 : (sanitize_column_names hs).Nodup) (h3 : cells ≠ [])
    (h4 : ∀ row ∈ cells, row.length = hs.length) :
    save_excel (read_excel (⟨hs, cells⟩ : XFile V)) = ⟨hs, cells⟩ ∧
    read_excel (save_excel (read_excel (⟨hs, cells⟩ : XFile V))) =
      read_excel (⟨hs, cells⟩ : XFile V) := by
  have h := save_excel_read_excel hs cells h1 h2 h3 h4
  exact ⟨h, by rw [h]⟩

/-- Witness for C3 (amended) on a one-column, one-row file. -/
theorem roundtrip_instance :
    ((["A".toList] : List Name).Nodup ∧
      (sanitize_column_names ["A".toList]).Nodup ∧
      ([[some 0]] : List (List (Option Nat))) ≠ [] ∧
      (∀ row ∈ ([[some 0]] : List (List (Option Nat))),
        row.length = (["A".toList] : List Name).length)) ∧
    (save_excel (read_excel (⟨["A".toList], [[some 0]]⟩ : XFile Nat)) =
        ⟨["A".toList], [[some 0]]⟩ ∧
      read_excel (save_excel (read_excel (⟨["A".toList], [[some 0]]⟩ : XFile Nat))) =
        read_excel (⟨["A".toList], [[some 0]]⟩ : XFile Nat)) :=
  ⟨⟨by decide, by decide, by decide, by decide⟩,
    roundtrip_amended ["A".toList] [[some 0]] (by decide) (by decide) (by decide) (by decide)⟩

/-! ## Claim C10: `get_column_mapping` under duplicate original headers -/

theorem mem_pyInsert_elim {K V : Type} [DecidableEq K] {d : PyDict K V} {k k' : K} {v v' : V}
    (h : (k, v) ∈ pyInsert d k' v') : (k, v) ∈ d ∨ (k = k' ∧ v = v') := by
  induction d with
  | nil =>
    simp [pyInsert] at h
    exact Or.inr h
  | cons p rest ih =>
    obtain ⟨a, b⟩ := p
    by_cases hak : a = k'
    · subst hak
      rw [pyInsert_cons_eq] at h
      rcases List.mem_cons.mp h with h1 | h1
      · injection h1 with h1a h1b
        exact Or.inr ⟨h1a, h1b⟩
      · exact Or.inl (List.mem_cons_of_mem _ h1)
    · rw [pyInsert_cons_ne hak] at h
      rcases List.mem_cons.mp h with h1 | h1
      · left
        rw [h1]
        exact List.mem_cons_self _ _
      · rcases ih h1 with h2 | h2
        · exact Or.inl (List.mem_cons_of_mem _ h2)
        · exact Or.inr h2

theorem gcm_fold_untouched (R : List (Name × Name)) :
    ∀ (D : PyDict Name Name) (k : Name), (∀ p ∈ R, p.2 ≠ k) →
      pyLookup (R.foldl (fun acc p => pyInsert acc p.2 p.1) D) k = pyLookup D k := by
  induction R with
  | nil => intro D k _; rfl
  | cons q R ih =>
    intro D k hne
    rw [List.foldl_cons, ih _ k (fun p hp => hne p (List.mem_cons_of_mem _ hp))]
    rw [pyLookup_pyInsert, if_neg (hne q (List.mem_cons_self _ _))]

theorem gcm_fold_ne (R : List (Name × Name)) :
    ∀ (D : PyDict Name Name) (k s : Name),
      (∃ p ∈ R, p.2 = k) → (∀ p ∈ R, p.1 ≠ s) →
      pyLookup (R.foldl (fun acc p => pyInsert acc p.2 p.1) D) k ≠ some s := by
  induction R with
  | nil =>
    intro D k s hex _
    simp at hex
  | cons q R ih =>
    intro D k s hex hne
    rw [List.foldl_cons]
    by_cases hrest : ∃ p ∈ R, p.2 = k
    · exact ih _ k s hrest (fun p hp => hne p (List.mem_cons_of_mem _ hp))
    · obtain ⟨p0, hp0, hp0k⟩ := hex
      have hq : q.2 = k := by
        rcases List.mem_cons.mp hp0 with h | h
        · rw [← h]
          exact hp0k
        · exact absurd ⟨p0, h, hp0k⟩ hrest
      have hnr : ∀ p ∈ R, p.2 ≠ k := by
        intro p hp hc
        exact hrest ⟨p, hp, hc⟩
      rw [gcm_fold_untouched R _ k hnr, pyLookup_pyInsert, if_pos hq]
      intro hc
      injection hc with hc
      exact hne q (List.mem_cons_self _ _) hc

theorem gcm_fold_mem_elim (R : List (Name × Name)) :
    ∀ (D : PyDict Name Name) (k s : Name),
      (k, s) ∈ R.foldl (fun acc p => pyInsert acc p.2 p.1) D →
      (k, s) ∈ D ∨ (s, k) ∈ R := by
  induction R with
  | nil =>
    intro D k s h
    exact Or.inl h
  | cons q R ih =>
    intro D k s h
    rw [List.foldl_cons] at h
    rcases ih _ k s h with h1 | h1
    · rcases mem_pyInsert_elim h1 with h2 | h2
      · exact Or.inl h2
      · obtain ⟨hk, hs⟩ := h2
        right
        have hqe : (s, k) = q := by
          rw [hs, hk]
        rw [hqe]
        exact List.mem_cons_self _ _
    · exact Or.inr (List.mem_cons_of_mem _ h1)

theorem gcm_fold_keys_mem (R : List (Name × Name)) :
    ∀ (D : PyDict Name Name) (k : Name),
      (k ∈ pyKeys (R.foldl (fun acc p => pyInsert acc p.2 p.1) D) ↔
        k ∈ pyKeys D ∨ k ∈ R.map Prod.snd) := by
  induction R with
  | nil =>
    intro D k
    simp
  | cons q R ih =>
    intro D k
    rw [List.foldl_cons, ih, mem_pyKeys_pyInsert, List.map_cons, List.mem_cons]
    tauto

theorem gcm_fold_keys_nodup (R : List (Name × Name)) :
    ∀ (D : PyDict Name Name), (pyKeys D).Nodup →
      (pyKeys (R.foldl (fun acc p => pyInsert acc p.2 p.1) D)).Nodup := by
  induction R with
  | nil => intro D h; exact h
  | cons q R ih =>
    intro D h
    rw [List.foldl_cons]
    exact ih _ (pyKeys_nodup_pyInsert _ _ h)

/-- C10 (amended): in a loaded table whose sanitized identifiers are
pairwise distinct, if two columns have identical original header text then
`get_column_mapping` (keyed by original header) collapses them: it has
strictly fewer entries than `get_attribute_names` and
`get_original_columns`, and one of the identifiers (that of the earlier
duplicate column) is absent from its values. -/
theorem column_mapping_collapse_amended {V : Type} (hs : List Name)
    (cells : List (List (Option V))) (i j : Nat) (hij : i < j) (hj : j < hs.length)
    (heq : hs.getD i [] = hs.getD j []) (hnd : (sanitize_column_names hs).Nodup) :
    (get_column_mapping (read_excel (⟨hs, cells⟩ : XFile V))).length <
      (get_attribute_names (read_excel (⟨hs, cells⟩ : XFile V))).length ∧
    (get_column_mapping (read_excel (⟨hs, cells⟩ : XFile V))).length <
      (get_original_columns (read_excel (⟨hs, cells⟩ : XFile V))).length ∧
    ∃ a ∈ get_attribute_names (read_excel (⟨hs, cells⟩ : XFile V)),
      ¬ a ∈ pyValues (get_column_mapping (read_excel (⟨hs, cells⟩ : XFile V))) := by
  have hi : i < hs.length := Nat.lt_trans hij hj
  have hsslen : (sanitize_column_names hs).length = hs.length := sanitize_length hs
  have hiss : i < (sanitize_column_names hs).length := by omega
  have hcm : (read_excel (⟨hs, cells⟩ : XFile V)).column_mapping =
      (sanitize_column_names hs).zip hs := by
    simp only [read_excel]
    exact pyDictOfZip_eq_zip _ _ hnd
  have hplen : ((sanitize_column_names hs).zip hs).length = hs.length := by
    rw [List.length_zip, hsslen, Nat.min_self]
  have hsnd : ((sanitize_column_names hs).zip hs).map Prod.snd = hs :=
    List.map_snd_zip _ _ (le_of_eq hsslen.symm)
  have hfst : ((sanitize_column_names hs).zip hs).map Prod.fst = sanitize_column_names hs :=
    List.map_fst_zip _ _ (le_of_eq hsslen)
  have heq2 : hs[i] = hs[j] := by
    rw [← List.getD_eq_getElem hs [] hi, ← List.getD_eq_getElem hs [] hj]
    exact heq
  have hnN : ¬ hs.Nodup := by
    intro hN
    have hinj := List.nodup_iff_injective_get.mp hN
    have hfin : (⟨i, hi⟩ : Fin hs.length) = ⟨j, hj⟩ := by
      apply hinj
      rw [List.get_eq_getElem, List.get_eq_getElem]
      exact heq2
    have hiej : i = j := by simpa using hfin
    omega
  have hgcm : get_column_mapping (read_excel (⟨hs, cells⟩ : XFile V)) =
      ((sanitize_column_names hs).zip hs).foldl (fun acc p => pyInsert acc p.2 p.1) [] := by
    rw [get_column_mapping, hcm]
  have hGnd : (pyKeys (get_column_mapping (read_excel (⟨hs, cells⟩ : XFile V)))).Nodup := by
    rw [hgcm]
    exact gcm_fold_keys_nodup _ [] (by simp)
  have hGmem : ∀ k, k ∈ pyKeys (get_column_mapping (read_excel (⟨hs, cells⟩ : XFile V))) ↔
      k ∈ hs := by
    intro k
    rw [hgcm, gcm_fold_keys_mem, hsnd]
    simp
  have hGcard : (get_column_mapping (read_excel (⟨hs, cells⟩ : XFile V))).length =
      hs.toFinset.card := by
    have h1 : (get_column_mapping (read_excel (⟨hs, cells⟩ : XFile V))).length =
        (pyKeys (get_column_mapping (read_excel (⟨hs, cells⟩ : XFile V)))).length :=
      (List.length_map _ _).symm
    have hset : (pyKeys (get_column_mapping (read_excel (⟨hs, cells⟩ : XFile V)))).toFinset =
        hs.toFinset := by
      apply Finset.ext
      intro x
      rw [List.mem_toFinset, List.mem_toFinset]
      exact hGmem x
    rw [h1, ← List.toFinset_card_of_nodup hGnd, hset]
  have hcardlt : hs.toFinset.card < hs.length := by
    rcases Nat.lt_or_ge hs.toFinset.card hs.length with h | h
    · exact h
    · exfalso
      have heqc : hs.toFinset.card = hs.length := Nat.le_antisymm (List.toFinset_card_le hs) h
      apply hnN
      rw [← Multiset.coe_nodup]
      apply Multiset.toFinset_card_eq_card_iff_nodup.mp
      simpa using heqc
  have hAlen : (get_attribute_names (read_excel (⟨hs, cells⟩ : XFile V))).length =
      hs.length := by
    rw [get_attribute_names, hcm,
      show pyKeys ((sanitize_column_names hs).zip hs) = sanitize_column_names hs from hfst]
    exact hsslen
  have hOlen : (get_original_columns (read_excel (⟨hs, cells⟩ : XFile V))).length =
      hs.length := by
    rw [get_original_columns, hcm,
      show pyValues ((sanitize_column_names hs).zip hs) = hs from hsnd]
  refine ⟨by omega, by omega, ?_⟩
  refine ⟨(sanitize_column_names hs).getD i [], ?_, ?_⟩
  · rw [get_attribute_names, hcm,
      show pyKeys ((sanitize_column_names hs).zip hs) = sanitize_column_names hs from hfst,
      List.getD_eq_getElem _ [] hiss]
    exact List.getElem_mem hiss
  · intro hmem
    obtain ⟨k, hk⟩ := (pyValues_mem_iff hGnd _).mp hmem
    have hkmem := mem_of_pyLookup_eq_some hk
    rw [hgcm] at hkmem
    rcases gcm_fold_mem_elim _ [] k _ hkmem with h0 | h0
    · simp at h0
    · obtain ⟨m, hm, hme⟩ := List.mem_iff_getElem.mp h0
      rw [List.getElem_zip] at hme
      injection hme with hm1 hm2
      have hmss : m < (sanitize_column_names hs).length := by
        rw [hplen] at hm
        omega
      have hmhs : m < hs.length := by
        rw [hplen] at hm
        exact hm
      have hm2g : hs.getD m [] = k := by
        rw [List.getD_eq_getElem hs [] hmhs]
        exact hm2
      have hmi : m = i := by
        have hinj := List.nodup_iff_injective_get.mp hnd
        have hfin : (⟨m, hmss⟩ : Fin (sanitize_column_names hs).length) = ⟨i, hiss⟩ := by
          apply hinj
          rw [List.get_eq_getElem, List.get_eq_getElem]
          rw [← List.getD_eq_getElem _ [] hiss]
          exact hm1
        simpa using hfin
      rw [hmi] at hm2g
      have hk2 : k = hs.getD j [] := by
        rw [← heq]
        exact hm2g.symm
      rw [hgcm, ← List.take_append_drop (i + 1) ((sanitize_column_names hs).zip hs),
        List.foldl_append] at hk
      have hjp : j < ((sanitize_column_names hs).zip hs).length := by omega
      have hjd : j - (i + 1) < (((sanitize_column_names hs).zip hs).drop (i + 1)).length := by
        rw [List.length_drop]
        omega
      have hdropj : (((sanitize_column_names hs).zip hs).drop (i + 1))[j - (i + 1)] =
          ((sanitize_column_names hs).zip hs)[j] := by
        rw [List.getElem_drop]
        congr 1
        omega
      refine gcm_fold_ne _ _ k _ ?hex ?hall hk
      case hex =>
        refine ⟨(((sanitize_column_names hs).zip hs).drop (i + 1))[j - (i + 1)],
          List.getElem_mem hjd, ?_⟩
        rw [hdropj, List.getElem_zip, ← List.getD_eq_getElem hs [] hj]
        exact hk2.symm
      case hall =>
        intro p hp hpa
        obtain ⟨m2, hm2b, hme2⟩ := List.mem_iff_getElem.mp hp
        rw [List.getElem_drop] at hme2
        have hm2len : (i + 1) + m2 < ((sanitize_column_names hs).zip hs).length := by
          rw [List.length_drop] at hm2b
          omega
        have hm2ss : (i + 1) + m2 < (sanitize_column_names hs).length := by
          rw [hplen] at hm2len
          omega
        have hinj := List.nodup_iff_injective_get.mp hnd
        have hfin : (⟨(i + 1) + m2, hm2ss⟩ : Fin (sanitize_column_names hs).length) =
            ⟨i, hiss⟩ := by
          apply hinj
          rw [List.get_eq_getElem, List.get_eq_getElem]
          have h1 : (sanitize_column_names hs)[(i + 1) + m2] = p.1 := by
            rw [← hme2, List.getElem_zip]
          rw [h1, hpa, List.getD_eq_getElem _ [] hiss]
        have himp : (i + 1) + m2 = i := by simpa using hfin
        omega

/-- Witness for C10 (amended) on a two-column table with duplicate header
text "Qty" (identifiers `qty` and `qty_B`; original-keyed mapping keeps
only `qty_B`). -/
theorem column_mapping_collapse_instance :
    ((0 : Nat) < 1 ∧ 1 < (["Qty".toList, "Qty".toList] : List Name).length ∧
      (["Qty".toList, "Qty".toList] : List Name).getD 0 [] =
        (["Qty".toList, "Qty".toList] : List Name).getD 1 [] ∧
      (sanitize_column_names ["Qty".toList, "Qty".toList]).Nodup) ∧
    ((get_column_mapping (read_excel
        (⟨["Qty".toList, "Qty".toList], []⟩ : XFile Nat))).length <
      (get_attribute_names (read_excel
        (⟨["Qty".toList, "Qty".toList], []⟩ : XFile Nat))).length ∧
    (get_column_mapping (read_excel
        (⟨["Qty".toList, "Qty".toList], []⟩ : XFile Nat))).length <
      (get_original_columns (read_excel
        (⟨["Qty".toList, "Qty".toList], []⟩ : XFile Nat))).length ∧
    ∃ a ∈ get_attribute_names (read_excel
        (⟨["Qty".toList, "Qty".toList], []⟩ : XFile Nat)),
      ¬ a ∈ pyValues (get_column_mapping (read_excel
        (⟨["Qty".toList, "Qty".toList], []⟩ : XFile Nat)))) :=
  ⟨⟨by decide, by decide, by decide, by decide⟩,
    column_mapping_collapse_amended ["Qty".toList, "Qty".toList] [] 0 1 (by decide)
      (by decide) (by decide) (by decide)⟩

/-- Thirty-four headers with duplicate text "qty" at positions 0 and 32.
Position 32 emits the disambiguated identifier `"qty_a"`
(`chr(65 + 32) = 'a'`), and position 33 ("qty a") sanitizes to the same
`"qty_a"`, so `column_mapping` itself collapses and `get_column_mapping`
does NOT end up strictly smaller. -/
def collapseHeaders : List Name :=
  ["qty".toList,
   "f01".toList, "f02".toList, "f03".toList, "f04".toList, "f05".toList,
   "f06".toList, "f07".toList, "f08".toList, "f09".toList, "f10".toList,
   "f11".toList, "f12".toList, "f13".toList, "f14".toList, "f15".toList,
   "f16".toList, "f17".toList, "f18".toList, "f19".toList, "f20".toList,
   "f21".toList, "f22".toList, "f23".toList, "f24".toList, "f25".toList,
   "f26".toList, "f27".toList, "f28".toList, "f29".toList, "f30".toList,
   "f31".toList,
   "qty".toList, "qty a".toList]

/-- C10 counterexample: a loaded table with two identically-titled columns
(positions 0 and 32) for which `get_column_mapping` is NOT strictly
smaller than `get_attribute_names` — the identifier collision at position
33 already collapsed `column_mapping`, so both have 33 entries. -/
theorem column_mapping_collapse_cex :
    collapseHeaders.getD 0 [] = collapseHeaders.getD 32 [] ∧
    (0 : Nat) < 32 ∧ 32 < collapseHeaders.length ∧
    ¬ ((get_column_mapping (read_excel (⟨collapseHeaders, []⟩ : XFile Nat))).length <
      (get_attribute_names (read_excel (⟨collapseHeaders, []⟩ : XFile Nat))).length) := by
  decide
